import Mathlib

/-!
Verification of the walker-population engine of the `fragile` FMC swarm
library: a shallow embedding of the cloning step, companion sampling, clone
probabilities, best-so-far tracking, batched environment execution, FMC
action aggregation, walker reset and the best-pinning operation, together
with theorems about them.
-/

namespace Fragile

/-! ## Masked assignment (numpy fancy-indexed write)

`a[mask] = b` in numpy first materialises the right-hand side `b` in full
(here `src`, a snapshot independent of the destination) and then writes
`src i` into every position `i` with `mask i = true`, position by position.
We model the write as a left fold over all indices.
-/

def maskedWrite {m : ℕ} {α : Type} (dest src : Fin m → α) (mask : Fin m → Bool) :
    Fin m → α :=
  (List.finRange m).foldl
    (fun acc j => if mask j then Function.update acc j (src j) else acc) dest

/-- Clone-gather of one column: `col[mask] = col[compas][mask]`.
The source `col[compas]` is materialised from the pre-clone column before any
write happens, exactly as numpy advanced indexing does. -/
def cloneColumn {m : ℕ} {α : Type} (pre : Fin m → α) (mask : Fin m → Bool)
    (compas : Fin m → Fin m) : Fin m → α :=
  maskedWrite pre (fun i => pre (compas i)) mask

/-- The walker columns acted on by the cloning step: `cum_rewards` and
`id_walkers` are gathered by `StatesWalkers.clone` (src/fragile/core/walkers.py
lines 68-73), while `states` and `actions` live in the env/model `States`
objects whose `clone` is invoked by `SimpleWalkers.clone_walkers`
(lines 296-306). -/
structure WalkerCols (m : ℕ) (ρ ι σ α : Type) where
  cum_rewards : Fin m → ρ
  id_walkers : Fin m → ι
  states : Fin m → σ
  actions : Fin m → α

/-- Modelled from the spec: the `clone` method of `fragile.core.states.States`
(file `states.py` is not under src/) performs, for every non-exempt column,
the gather `dest[i] ← src[compas[i]]` for every `i` with `will_clone[i]`,
reading from the pre-update snapshot (spec section 4.1).  Together with the
in-src `StatesWalkers.clone` this gives the full cloning step over the four
columns the claim mentions. -/
def cloneWalkers {m : ℕ} {ρ ι σ α : Type} (w : WalkerCols m ρ ι σ α)
    (mask : Fin m → Bool) (compas : Fin m → Fin m) : WalkerCols m ρ ι σ α :=
  { cum_rewards := cloneColumn w.cum_rewards mask compas
    id_walkers := cloneColumn w.id_walkers mask compas
    states := cloneColumn w.states mask compas
    actions := cloneColumn w.actions mask compas }

/-! ## Companion sampling and clone probabilities -/

/-- Indices of alive walkers in increasing order:
`arange(n)[alive_mask]` with `alive_mask = logical_not(end_condition)`
(walkers.py lines 244-247). -/
def aliveIndexes (m : ℕ) (endCondition : Fin m → Bool) : List (Fin m) :=
  (List.finRange m).filter (fun i => !(endCondition i))

/-- `SimpleWalkers.get_alive_compas` (walkers.py lines 235-250): if every
walker is dead return `arange(n)`; otherwise draw `n` companions from the
alive indices with replacement (the random draw abstracted as `draw`, taken
modulo the number of alive walkers) and overwrite the first `|alive|` slots
with the alive indices themselves. -/
def getAliveCompas (m : ℕ) (endCondition : Fin m → Bool) (draw : Fin m → ℕ) :
    Fin m → Fin m :=
  if h : aliveIndexes m endCondition = [] then fun i => i
  else fun i =>
    if hi : i.val < (aliveIndexes m endCondition).length then
      (aliveIndexes m endCondition).get ⟨i.val, hi⟩
    else
      (aliveIndexes m endCondition).get
        ⟨draw i % (aliveIndexes m endCondition).length,
         Nat.mod_lt _ (List.length_pos.mpr h)⟩

noncomputable def meanF {m : ℕ} (x : Fin m → ℝ) : ℝ := (∑ i, x i) / m

noncomputable def stdF {m : ℕ} (x : Fin m → ℝ) : ℝ :=
  Real.sqrt (meanF (fun i => (x i - meanF x) ^ 2))

/-- Modelled from the spec: `relativize` from `fragile.core.utils` (utils.py
is not under src/).  Spec section 4.2: if the standard deviation is zero the
result is the all-ones vector, otherwise the z-scores mapped through `exp`. -/
noncomputable def relativize {m : ℕ} (x : Fin m → ℝ) : Fin m → ℝ :=
  if stdF x = 0 then fun _ => 1
  else fun i => Real.exp ((x i - meanF x) / stdF x)

/-- `SimpleWalkers.calculate_virtual_reward` (walkers.py lines 224-233):
relativized cumulative rewards to the power `reward_scale` times the stored
distances to the power `dist_scale`. -/
noncomputable def virtualRewards {m : ℕ} (cum distances : Fin m → ℝ)
    (rewardScale distScale : ℝ) : Fin m → ℝ :=
  fun i => relativize cum i ^ rewardScale * distances i ^ distScale

/-- The formula of walkers.py lines 268-270:
`sqrt(clip((vr[compas] - vr) / vr, 0, 1.1))`. -/
noncomputable def cloneProbFormula {m : ℕ} (vr : Fin m → ℝ)
    (compas : Fin m → Fin m) : Fin m → ℝ :=
  fun i => Real.sqrt (min (max ((vr (compas i) - vr i) / vr i) 0) 1.1)

open Classical in
/-- `SimpleWalkers.update_clone_probs` (walkers.py lines 252-271): when all
virtual rewards are equal, zero probabilities and identity companions;
otherwise companions from `get_alive_compas` and the sqrt-clip formula. -/
noncomputable def updateCloneProbs {n : ℕ} (vr : Fin (n + 1) → ℝ)
    (endCondition : Fin (n + 1) → Bool) (draw : Fin (n + 1) → ℕ) :
    (Fin (n + 1) → ℝ) × (Fin (n + 1) → Fin (n + 1)) :=
  if ∀ i, vr i = vr 0 then (fun _ => 0, fun i => i)
  else (cloneProbFormula vr (getAliveCompas (n + 1) endCondition draw),
        getAliveCompas (n + 1) endCondition draw)

open Classical in
/-- The `will_clone` sampling of `SimpleWalkers.clone_walkers` (walkers.py
lines 296-302): compare each clone probability with a uniform sample using
strict `>`, then force `will_clone` for every dead walker. -/
noncomputable def sampleWillClone {m : ℕ} (cloneProbs u : Fin m → ℝ)
    (endCondition : Fin m → Bool) : Fin m → Bool :=
  fun i => if endCondition i then true else decide (u i < cloneProbs i)

/-! ## Best-so-far tracking -/

/-- `numpy.argmax` over a vector: index of the first maximal entry
(left fold replacing the candidate only on a strictly greater value). -/
def argmaxVec {n : ℕ} (v : Fin (n + 1) → ℕ) : Fin (n + 1) :=
  (List.finRange (n + 1)).foldl (fun b j => if v j > v b then j else b) 0

/-- `numpy.argmin` over a vector: index of the first minimal entry. -/
def argminVec {n : ℕ} (v : Fin (n + 1) → ℕ) : Fin (n + 1) :=
  (List.finRange (n + 1)).foldl (fun b j => if v j < v b then j else b) 0

/-- `Walkers._get_best_index` (walkers.py lines 457-464): take the rewards of
the alive walkers, return 0 if none are alive, compute their min (if
minimize) or max, build the 0/1 indicator `idx = (cum_rewards == best)` and
return `idx.argmin()` (if minimize) or `idx.argmax()`. -/
def getBestIndex {n : ℕ} (minimize : Bool) (cum : Fin (n + 1) → ℚ)
    (endCondition : Fin (n + 1) → Bool) : Fin (n + 1) :=
  match ((List.finRange (n + 1)).filter (fun i => !(endCondition i))).map cum with
  | [] => 0
  | a :: rest =>
    let best := if minimize then rest.foldl min a else rest.foldl max a
    let idx : Fin (n + 1) → ℕ := fun i => if cum i = best then 1 else 0
    if minimize then argminVec idx else argmaxVec idx

/-! ## Walker reset -/

/-- The eleven walker columns set by `StatesWalkers.reset`. -/
structure ResetCols (m : ℕ) where
  id_walkers : Fin m → ℤ
  compas_dist : Fin m → ℤ
  compas_clone : Fin m → ℤ
  processed_rewards : Fin m → ℚ
  cum_rewards : Fin m → ℚ
  virtual_rewards : Fin m → ℚ
  distances : Fin m → ℚ
  clone_probs : Fin m → ℚ
  will_clone : Fin m → Bool
  alive_mask : Fin m → Bool
  end_condition : Fin m → Bool

/-- `StatesWalkers.reset` (walkers.py lines 75-92): zeros for most columns,
but `compas_dist`/`compas_clone` are `arange(n)` and
`virtual_rewards`/`alive_mask` are ones. -/
def statesWalkersReset (m : ℕ) : ResetCols m :=
  { id_walkers := fun _ => 0
    compas_dist := fun i => (i.val : ℤ)
    compas_clone := fun i => (i.val : ℤ)
    processed_rewards := fun _ => 0
    cum_rewards := fun _ => 0
    virtual_rewards := fun _ => 1
    distances := fun _ => 0
    clone_probs := fun _ => 0
    will_clone := fun _ => false
    alive_mask := fun _ => true
    end_condition := fun _ => false }

/-! ## Pinning the best walker -/

/-- The table columns touched or framed by `Walkers.fix_best`: the env
`states` and `observs`, the walker `cum_rewards` and `id_walkers`, plus a
model column `actions` standing for the untouched rest of the table. -/
structure TableCols (n : ℕ) (σ ω α : Type) where
  states : Fin (n + 1) → σ
  observs : Fin (n + 1) → ω
  cum_rewards : Fin (n + 1) → ℚ
  id_walkers : Fin (n + 1) → ℤ
  actions : Fin (n + 1) → α

/-- The best-so-far record `{best_state, best_obs, best_reward}`. -/
structure BestRecord (σ ω : Type) where
  best_state : σ
  best_obs : ω
  best_reward : ℚ

/-- `Walkers.fix_best` (walkers.py lines 481-485): when a best record is
stored, overwrite row `N-1` (python index `-1`) of `observs`, `cum_rewards`
and `states` with it; nothing else is touched. -/
def fixBest {n : ℕ} {σ ω α : Type} (t : TableCols n σ ω α)
    (best : Option (BestRecord σ ω)) : TableCols n σ ω α :=
  match best with
  | none => t
  | some b =>
    { t with
      observs := Function.update t.observs (Fin.last n) b.best_obs
      cum_rewards := Function.update t.cum_rewards (Fin.last n) b.best_reward
      states := Function.update t.states (Fin.last n) b.best_state }

/-! ## Batched environment execution -/

/-- Modelled from the spec: `split_kwargs_in_chunks` / `split_args_in_chunks`
from `fragile.core.utils` (utils.py is not under src/).  Spec section 4.5:
split a length-N batch into `k` contiguous chunks of near-equal size, the
last chunk absorbing the remainder. -/
def splitChunks {α : Type} (l : List α) (k : ℕ) : List (List α) :=
  ((List.range (k - 1)).map
      (fun i => ((l.drop (i * (l.length / k))).take (l.length / k)))) ++
    [l.drop ((k - 1) * (l.length / k))]

/-- `_BatchEnv._merge_data` (distributed/env.py lines 276-286) restricted to
one output column: concatenate the per-worker results in worker order. -/
def mergeColumn {β : Type} (chunks : List (List β)) : List β := chunks.flatten

/-! ## FMC action aggregation -/

/-- `numpy.bincount(l, minlength)`: the vector of occurrence counts of each
value below `max(minlength, max(l)+1)`. -/
def bincount (l : List ℕ) (minlength : ℕ) : List ℕ :=
  (List.range (max minlength (l.foldr (fun a b => max (a + 1) b) 0))).map
    (fun v => l.count v)

/-- `numpy.argmax` on a list of counts: index of the first maximal entry. -/
def argmaxCount (l : List ℕ) : ℕ :=
  (List.range l.length).foldl (fun b j => if l.getD j 0 > l.getD b 0 then j else b) 0

/-- `FMCPolicy._choose_majority` (algorithms/fmc.py lines 52-56):
`argmax(bincount(init_actions, minlength=n_actions))`. -/
def chooseMajority (initActions : List ℕ) (nActions : ℕ) : ℕ :=
  argmaxCount (bincount initActions nActions)

/-- The continuous branch of `FMCPolicy.select_actions` (fmc.py lines 46-50):
the per-dimension mean of the recorded first actions across inner walkers. -/
def meanActions (initActions : List (List ℚ)) (dims : ℕ) : List ℚ :=
  (List.range dims).map
    (fun j => (initActions.map (fun row => row.getD j 0)).sum / initActions.length)

end Fragile

namespace Fragile

theorem foldl_maskedWrite_eval {m : ℕ} {α : Type} (src : Fin m → α)
    (mask : Fin m → Bool) :
    ∀ (l : List (Fin m)) (dest : Fin m → α) (i : Fin m),
      (l.foldl (fun acc j => if mask j then Function.update acc j (src j) else acc)
          dest) i
        = if i ∈ l ∧ mask i = true then src i else dest i := by
  intro l
  induction l with
  | nil => intro dest i; simp
  | cons a t ih =>
    intro dest i
    rw [List.foldl_cons, ih]
    by_cases hmi : mask i = true
    · by_cases hit : i ∈ t
      · simp [hit, hmi, List.mem_cons]
      · by_cases hia : i = a
        · subst hia
          simp [hit, hmi, Function.update_apply, List.mem_cons]
        · by_cases hma : mask a = true <;>
            simp [hit, hmi, hia, hma, Function.update_apply, List.mem_cons]
    · by_cases hia : i = a
      · subst hia
        simp [hmi, Function.update_apply]
      · by_cases hma : mask a = true <;>
          simp [hmi, hia, hma, Function.update_apply]

theorem maskedWrite_eval {m : ℕ} {α : Type} (dest src : Fin m → α)
    (mask : Fin m → Bool) (i : Fin m) :
    maskedWrite dest src mask i = if mask i = true then src i else dest i := by
  unfold maskedWrite
  rw [foldl_maskedWrite_eval]
  simp [List.mem_finRange]

theorem cloneColumn_eval {m : ℕ} {α : Type} (pre : Fin m → α) (mask : Fin m → Bool)
    (compas : Fin m → Fin m) (i : Fin m) :
    cloneColumn pre mask compas i = if mask i = true then pre (compas i) else pre i := by
  unfold cloneColumn
  rw [maskedWrite_eval]

/-- C1: for every walker `i` with `will_clone[i] = true`, the cloning step
overwrites position `i` of `cum_rewards`, `id_walkers`, `states` and `actions`
with the value the companion `compas_clone[i]` held before the clone began
(the copy reads from the pre-clone snapshot, never from a partially
overwritten destination, even when many walkers share the same companion),
and every walker with `will_clone[i] = false` keeps its values unchanged. -/
theorem clone_gathers_from_pre_snapshot {m : ℕ} {ρ ι σ α : Type}
    (w : WalkerCols m ρ ι σ α) (mask : Fin m → Bool) (compas : Fin m → Fin m)
    (i : Fin m) :
    (mask i = true →
      (cloneWalkers w mask compas).cum_rewards i = w.cum_rewards (compas i) ∧
      (cloneWalkers w mask compas).id_walkers i = w.id_walkers (compas i) ∧
      (cloneWalkers w mask compas).states i = w.states (compas i) ∧
      (cloneWalkers w mask compas).actions i = w.actions (compas i)) ∧
    (mask i = false →
      (cloneWalkers w mask compas).cum_rewards i = w.cum_rewards i ∧
      (cloneWalkers w mask compas).id_walkers i = w.id_walkers i ∧
      (cloneWalkers w mask compas).states i = w.states i ∧
      (cloneWalkers w mask compas).actions i = w.actions i) := by
  refine ⟨fun h => ⟨?_, ?_, ?_, ?_⟩, fun h => ⟨?_, ?_, ?_, ?_⟩⟩ <;>
    simp [cloneWalkers, cloneColumn_eval, *]

theorem mem_aliveIndexes {m : ℕ} (endc : Fin m → Bool) (j : Fin m) :
    j ∈ aliveIndexes m endc ↔ endc j = false := by
  simp [aliveIndexes, List.mem_filter, List.mem_finRange]

theorem aliveIndexes_ne_nil {m : ℕ} (endc : Fin m → Bool)
    (h : ∃ j, endc j = false) : aliveIndexes m endc ≠ [] := by
  obtain ⟨j, hj⟩ := h
  intro he
  have hmem := (mem_aliveIndexes endc j).mpr hj
  rw [he] at hmem
  exact List.not_mem_nil j hmem

theorem getAliveCompas_alive {m : ℕ} (endc : Fin m → Bool) (draw : Fin m → ℕ)
    (h : ∃ j, endc j = false) (i : Fin m) :
    endc (getAliveCompas m endc draw i) = false := by
  have hne := aliveIndexes_ne_nil endc h
  unfold getAliveCompas
  rw [dif_neg hne]
  by_cases hi : i.val < (aliveIndexes m endc).length
  · rw [dif_pos hi]
    exact (mem_aliveIndexes endc _).mp (List.get_mem _ _ _)
  · rw [dif_neg hi]
    exact (mem_aliveIndexes endc _).mp (List.get_mem _ _ _)

theorem aliveIndexes_length_le {m : ℕ} (endc : Fin m → Bool) :
    (aliveIndexes m endc).length ≤ m := by
  have := List.length_filter_le (fun i => !(endc i)) (List.finRange m)
  simpa [aliveIndexes] using this

theorem getAliveCompas_surj {m : ℕ} (endc : Fin m → Bool) (draw : Fin m → ℕ)
    (h : ∃ j, endc j = false) (j : Fin m) (hj : endc j = false) :
    ∃ i, getAliveCompas m endc draw i = j := by
  have hne := aliveIndexes_ne_nil endc h
  have hmem := (mem_aliveIndexes endc j).mpr hj
  obtain ⟨p, hp⟩ := List.mem_iff_get.mp hmem
  have hpm : p.val < m := lt_of_lt_of_le p.isLt (aliveIndexes_length_le endc)
  refine ⟨⟨p.val, hpm⟩, ?_⟩
  unfold getAliveCompas
  rw [dif_neg hne, dif_pos p.isLt]
  rw [← hp]

theorem getAliveCompas_all_dead {m : ℕ} (endc : Fin m → Bool) (draw : Fin m → ℕ)
    (h : ∀ i, endc i = true) : getAliveCompas m endc draw = fun i => i := by
  have hnil : aliveIndexes m endc = [] := by
    rw [aliveIndexes, List.filter_eq_nil_iff]
    intro a _
    simp [h a]
  unfold getAliveCompas
  rw [dif_pos hnil]

theorem meanF_const {m : ℕ} (x : Fin (m + 1) → ℝ) (h : ∀ i j, x i = x j) :
    meanF x = x 0 := by
  unfold meanF
  have hsum : (∑ i, x i) = (m + 1 : ℕ) * x 0 := by
    rw [Finset.sum_congr rfl (fun i _ => h i 0)]
    simp [Finset.sum_const, Finset.card_univ, nsmul_eq_mul]
  rw [hsum]
  field_simp

theorem relativize_const {m : ℕ} (x : Fin (m + 1) → ℝ) (h : ∀ i j, x i = x j) :
    relativize x = fun _ => 1 := by
  have hstd : stdF x = 0 := by
    unfold stdF
    have hz : (fun i => (x i - meanF x) ^ 2) = fun _ => (0 : ℝ) := by
      funext i
      rw [meanF_const x h, h i 0]
      ring
    rw [hz]
    have : meanF (fun _ : Fin (m + 1) => (0 : ℝ)) = 0 := by
      unfold meanF
      simp
    rw [this, Real.sqrt_zero]
  unfold relativize
  rw [if_pos hstd]

theorem virtualRewards_const {m : ℕ} (cum d : Fin (m + 1) → ℝ) (rs ds : ℝ)
    (hcum : ∀ i j, cum i = cum j) (hd : ∀ i j, d i = d j) (j : Fin (m + 1)) :
    virtualRewards cum d rs ds j = virtualRewards cum d rs ds 0 := by
  unfold virtualRewards
  rw [relativize_const cum hcum, hd j 0]

/-- C2: `update_clone_probs` sets `clone_probs` to zeros with identity
companions when all virtual rewards are equal, and otherwise computes
`clone_probs[i] = sqrt(clip((vr[compas_clone[i]] - vr[i]) / vr[i], 0, 1.1))`;
assuming every `virtual_rewards[i] > 0`, every `clone_probs[i]` lies in
`[0, sqrt 1.1]`. -/
theorem update_clone_probs_formula_and_range {n : ℕ} (vr : Fin (n + 1) → ℝ)
    (endc : Fin (n + 1) → Bool) (draw : Fin (n + 1) → ℕ)
    (hpos : ∀ i, 0 < vr i) :
    ((∀ i, vr i = vr 0) →
        (updateCloneProbs vr endc draw).1 = (fun _ => 0) ∧
        (updateCloneProbs vr endc draw).2 = fun i => i) ∧
    (¬ (∀ i, vr i = vr 0) →
        ∀ i, (updateCloneProbs vr endc draw).1 i =
          Real.sqrt (min (max
            ((vr ((updateCloneProbs vr endc draw).2 i) - vr i) / vr i) 0) 1.1)) ∧
    (∀ i, 0 ≤ (updateCloneProbs vr endc draw).1 i ∧
        (updateCloneProbs vr endc draw).1 i ≤ Real.sqrt 1.1) := by
  by_cases hall : ∀ i, vr i = vr 0
  · have h1 : updateCloneProbs vr endc draw = (fun _ => 0, fun i => i) := by
      unfold updateCloneProbs
      rw [if_pos hall]
    refine ⟨fun _ => ⟨by rw [h1], by rw [h1]⟩, fun hne => absurd hall hne, fun i => ?_⟩
    rw [h1]
    exact ⟨le_refl 0, Real.sqrt_nonneg _⟩
  · have h1 : updateCloneProbs vr endc draw =
        (cloneProbFormula vr (getAliveCompas (n + 1) endc draw),
         getAliveCompas (n + 1) endc draw) := by
      unfold updateCloneProbs
      rw [if_neg hall]
    refine ⟨fun hyes => absurd hyes hall, fun _ i => ?_, fun i => ?_⟩
    · rw [h1]
      rfl
    · rw [h1]
      refine ⟨Real.sqrt_nonneg _, ?_⟩
      exact Real.sqrt_le_sqrt (min_le_right _ _)

/-- C2 witness at a single walker with virtual reward 1. -/
theorem update_clone_probs_formula_and_range_witness :
    (0 : ℝ) < 1 ∧
    0 ≤ (updateCloneProbs (fun _ : Fin 1 => (1 : ℝ)) (fun _ => false) (fun _ => 0)).1 0 ∧
    (updateCloneProbs (fun _ : Fin 1 => (1 : ℝ)) (fun _ => false) (fun _ => 0)).1 0 ≤
      Real.sqrt 1.1 := by
  have h := (update_clone_probs_formula_and_range (n := 0) (fun _ => (1 : ℝ))
    (fun _ => false) (fun _ => 0) (fun _ => by norm_num)).2.2 0
  exact ⟨by norm_num, h.1, h.2⟩

/-- C3: the sampled `will_clone` is forced true for every dead walker
regardless of its clone probability, and when all cumulative rewards are
equal and all distances are equal (so all virtual rewards are equal, clone
probabilities are all zero, and the uniform samples are compared with strict
`<`), `will_clone[i]` equals the end condition exactly. -/
theorem dead_walkers_always_clone {n : ℕ} (rs ds : ℝ)
    (cum d u : Fin (n + 1) → ℝ) (endc : Fin (n + 1) → Bool) (draw : Fin (n + 1) → ℕ)
    (hcum : ∀ i j, cum i = cum j) (hd : ∀ i j, d i = d j) (hu : ∀ i, 0 ≤ u i) :
    (∀ (cp u2 : Fin (n + 1) → ℝ) (i : Fin (n + 1)), endc i = true →
        sampleWillClone cp u2 endc i = true) ∧
    (∀ i, sampleWillClone ((updateCloneProbs (virtualRewards cum d rs ds) endc draw).1)
        u endc i = endc i) := by
  constructor
  · intro cp u2 i h
    simp [sampleWillClone, h]
  · intro i
    have h1 : (updateCloneProbs (virtualRewards cum d rs ds) endc draw).1 =
        fun _ => 0 := by
      unfold updateCloneProbs
      rw [if_pos (virtualRewards_const cum d rs ds hcum hd)]
    rw [h1]
    by_cases he : endc i = true
    · simp [sampleWillClone, he]
    · have hnl : ¬ (u i < (0 : ℝ)) := not_lt.mpr (hu i)
      simp [sampleWillClone, he, hnl]

/-- C3 witness: two walkers, walker 0 dead, walker 1 alive, constant rewards
and distances. -/
theorem dead_walkers_always_clone_witness :
    (fun _ : Fin 2 => (0 : ℝ)) 0 = (fun _ : Fin 2 => (0 : ℝ)) 1 ∧
    sampleWillClone
      ((updateCloneProbs (virtualRewards (fun _ : Fin 2 => (0 : ℝ))
          (fun _ => 1) 1 1) ![true, false] (fun _ => 0)).1)
      (fun _ => 1 / 2) ![true, false] 0 = ![true, false] 0 := by
  have h := (dead_walkers_always_clone (n := 1) 1 1 (fun _ => 0) (fun _ => 1)
    (fun _ => 1 / 2) ![true, false] (fun _ => 0)
    (fun _ _ => rfl) (fun _ _ => rfl) (fun _ => by norm_num)).2 0
  exact ⟨rfl, h⟩

/-- C4: when at least one walker is alive and the virtual rewards are not all
equal, `compas_clone` comes from `get_alive_compas`, every entry of it is the
index of an alive walker, and every alive walker index appears at least once
(the first `|alive|` slots are the alive indices themselves). -/
theorem alive_compas_covers_alive {n : ℕ} (vr : Fin (n + 1) → ℝ)
    (endc : Fin (n + 1) → Bool) (draw : Fin (n + 1) → ℕ)
    (halive : ∃ j, endc j = false) (hneq : ¬ ∀ i, vr i = vr 0) :
    (updateCloneProbs vr endc draw).2 = getAliveCompas (n + 1) endc draw ∧
    (∀ i, endc (getAliveCompas (n + 1) endc draw i) = false) ∧
    (∀ j, endc j = false → ∃ i, getAliveCompas (n + 1) endc draw i = j) := by
  refine ⟨?_, fun i => getAliveCompas_alive endc draw halive i,
    fun j hj => getAliveCompas_surj endc draw halive j hj⟩
  unfold updateCloneProbs
  rw [if_neg hneq]

/-- C4 witness: two walkers, walker 0 dead, walker 1 alive, distinct virtual
rewards. -/
theorem alive_compas_covers_alive_witness :
    (![(1 : ℝ), 2] 1 ≠ ![(1 : ℝ), 2] 0) ∧
    (∀ i, ![true, false] (getAliveCompas 2 ![true, false] (fun _ => 0) i) = false) := by
  have hneq : ¬ ∀ i : Fin 2, ![(1 : ℝ), 2] i = ![(1 : ℝ), 2] 0 := by
    intro h
    have := h 1
    simp [Matrix.cons_val_one, Matrix.cons_val_zero] at this
  have h := (alive_compas_covers_alive (n := 1) ![(1 : ℝ), 2] ![true, false]
    (fun _ => 0) ⟨1, rfl⟩ hneq).2.1
  refine ⟨?_, h⟩
  intro he
  exact hneq (fun i => by fin_cases i <;> simp_all)

/-- C10: when every walker is dead, `compas_clone` is the identity in both
branches of `update_clone_probs`, so the clone copies every walker onto
itself and leaves every column unchanged even though `will_clone` may be
forced true everywhere. -/
theorem all_dead_clone_is_identity {n : ℕ} {ρ ι σ α : Type}
    (vr : Fin (n + 1) → ℝ) (endc : Fin (n + 1) → Bool) (draw : Fin (n + 1) → ℕ)
    (w : WalkerCols (n + 1) ρ ι σ α) (mask : Fin (n + 1) → Bool)
    (hdead : ∀ i, endc i = true) :
    (updateCloneProbs vr endc draw).2 = (fun i => i) ∧
    (∀ i,
      (cloneWalkers w mask ((updateCloneProbs vr endc draw).2)).cum_rewards i =
        w.cum_rewards i ∧
      (cloneWalkers w mask ((updateCloneProbs vr endc draw).2)).id_walkers i =
        w.id_walkers i ∧
      (cloneWalkers w mask ((updateCloneProbs vr endc draw).2)).states i =
        w.states i ∧
      (cloneWalkers w mask ((updateCloneProbs vr endc draw).2)).actions i =
        w.actions i) := by
  have hid : (updateCloneProbs vr endc draw).2 = fun i => i := by
    unfold updateCloneProbs
    by_cases hall : ∀ i, vr i = vr 0
    · rw [if_pos hall]
    · rw [if_neg hall]
      exact getAliveCompas_all_dead endc draw hdead
  refine ⟨hid, fun i => ?_⟩
  rw [hid]
  refine ⟨?_, ?_, ?_, ?_⟩ <;> simp [cloneWalkers, cloneColumn_eval]

/-- C10 witness: one dead walker. -/
theorem all_dead_clone_is_identity_witness :
    (updateCloneProbs (fun _ : Fin 1 => (1 : ℝ)) (fun _ => true) (fun _ => 0)).2 =
      (fun i => i) ∧
    (cloneWalkers
        ({ cum_rewards := fun _ => (3 : ℚ), id_walkers := fun _ => (7 : ℤ),
           states := fun _ => (9 : ℤ), actions := fun _ => (2 : ℕ) } :
          WalkerCols 1 ℚ ℤ ℤ ℕ)
        (fun _ => true)
        ((updateCloneProbs (fun _ : Fin 1 => (1 : ℝ)) (fun _ => true)
            (fun _ => 0)).2)).cum_rewards 0 = 3 := by
  have h := all_dead_clone_is_identity (n := 0) (fun _ => (1 : ℝ)) (fun _ => true)
    (fun _ => 0)
    ({ cum_rewards := fun _ => (3 : ℚ), id_walkers := fun _ => (7 : ℤ),
       states := fun _ => (9 : ℤ), actions := fun _ => (2 : ℕ) } :
      WalkerCols 1 ℚ ℤ ℤ ℕ)
    (fun _ => true) (fun _ => rfl)
  exact ⟨h.1, (h.2 0).1⟩

/-- C1 witness: three walkers, walkers 0 and 1 clone from the shared
companion 2, walker 2 does not clone. -/
theorem clone_gathers_from_pre_snapshot_witness :
    (![true, true, false] : Fin 3 → Bool) 0 = true ∧
    (![true, true, false] : Fin 3 → Bool) 2 = false ∧
    (cloneWalkers
        ({ cum_rewards := ![10, 20, 30], id_walkers := ![5, 6, 7],
           states := ![100, 200, 300], actions := ![1, 2, 3] } :
          WalkerCols 3 ℚ ℤ ℤ ℕ)
        ![true, true, false] ![2, 2, 1]).cum_rewards 0 = 30 ∧
    (cloneWalkers
        ({ cum_rewards := ![10, 20, 30], id_walkers := ![5, 6, 7],
           states := ![100, 200, 300], actions := ![1, 2, 3] } :
          WalkerCols 3 ℚ ℤ ℤ ℕ)
        ![true, true, false] ![2, 2, 1]).cum_rewards 2 = 30 := by
  have h0 := (clone_gathers_from_pre_snapshot
    ({ cum_rewards := ![10, 20, 30], id_walkers := ![5, 6, 7],
       states := ![100, 200, 300], actions := ![1, 2, 3] } :
      WalkerCols 3 ℚ ℤ ℤ ℕ) ![true, true, false] ![2, 2, 1] 0).1 rfl
  have h2 := (clone_gathers_from_pre_snapshot
    ({ cum_rewards := ![10, 20, 30], id_walkers := ![5, 6, 7],
       states := ![100, 200, 300], actions := ![1, 2, 3] } :
      WalkerCols 3 ℚ ℤ ℤ ℕ) ![true, true, false] ![2, 2, 1] 2).2 rfl
  refine ⟨rfl, rfl, ?_, ?_⟩
  · rw [h0.1]
    rfl
  · rw [h2.1]
    rfl

/-- C5 (code bug): with `minimize = true`, two alive walkers and
`cum_rewards = [5, 3]`, `_get_best_index` returns index 0 — the first walker
whose reward is NOT equal to the alive minimum — because `idx.argmin()` on
the 0/1 indicator finds the first zero; the claim (and the code's intent)
selects the argmin walker 1 with reward 3. -/
theorem get_best_index_minimize_bug :
    getBestIndex true ![(5 : ℚ), 3] ![false, false] = 0 ∧
    (![(5 : ℚ), 3] : Fin 2 → ℚ) 1 < (![(5 : ℚ), 3] : Fin 2 → ℚ) 0 ∧
    (![false, false] : Fin 2 → Bool) 1 = false := by
  refine ⟨?_, by norm_num, rfl⟩
  decide

/-- C8 counterexample: after `StatesWalkers.reset` with two walkers the
virtual rewards are ones (not zeros), the alive mask is all true and
`compas_clone` is `arange(n)`, so not every derived column holds the zero
value of its type. -/
theorem reset_not_all_zero :
    ¬ ((statesWalkersReset 2).virtual_rewards 0 = 0 ∧
       (statesWalkersReset 2).alive_mask 0 = false ∧
       (statesWalkersReset 2).compas_clone 1 = 0) := by
  intro h
  have := h.1
  norm_num [statesWalkersReset] at this

/-- C8 (amended): after `StatesWalkers.reset`, the columns `id_walkers`,
`processed_rewards`, `cum_rewards`, `distances`, `clone_probs`, `will_clone`
and `end_condition` are all zero/false, while `virtual_rewards` is all ones,
`alive_mask` is all true, and `compas_dist`/`compas_clone` are the identity
`arange(n)`. -/
theorem reset_column_values (m : ℕ) (i : Fin m) :
    (statesWalkersReset m).id_walkers i = 0 ∧
    (statesWalkersReset m).processed_rewards i = 0 ∧
    (statesWalkersReset m).cum_rewards i = 0 ∧
    (statesWalkersReset m).distances i = 0 ∧
    (statesWalkersReset m).clone_probs i = 0 ∧
    (statesWalkersReset m).will_clone i = false ∧
    (statesWalkersReset m).end_condition i = false ∧
    (statesWalkersReset m).virtual_rewards i = 1 ∧
    (statesWalkersReset m).alive_mask i = true ∧
    (statesWalkersReset m).compas_dist i = i.val ∧
    (statesWalkersReset m).compas_clone i = i.val :=
  ⟨rfl, rfl, rfl, rfl, rfl, rfl, rfl, rfl, rfl, rfl, rfl⟩

/-- C9: `fix_best` modifies only row `N-1` of the table: it overwrites
`observs[N-1]`, `cum_rewards[N-1]` and `states[N-1]` with the stored best
record, leaves every other row of every column unchanged, and never touches
`id_walkers`; in particular when the hash of the best state differs from the
stored id, after `fix_best` the id of walker `N-1` is no longer the content
hash of `states[N-1]`. -/
theorem fix_best_frame {n : ℕ} {σ ω α : Type} (t : TableCols n σ ω α)
    (b : BestRecord σ ω) :
    ((fixBest t (some b)).observs (Fin.last n) = b.best_obs ∧
     (fixBest t (some b)).cum_rewards (Fin.last n) = b.best_reward ∧
     (fixBest t (some b)).states (Fin.last n) = b.best_state) ∧
    (∀ i, i ≠ Fin.last n →
      (fixBest t (some b)).observs i = t.observs i ∧
      (fixBest t (some b)).cum_rewards i = t.cum_rewards i ∧
      (fixBest t (some b)).states i = t.states i) ∧
    (∀ i, (fixBest t (some b)).id_walkers i = t.id_walkers i ∧
          (fixBest t (some b)).actions i = t.actions i) ∧
    (∀ hash : σ → ℤ, hash b.best_state ≠ t.id_walkers (Fin.last n) →
      (fixBest t (some b)).id_walkers (Fin.last n) ≠
        hash ((fixBest t (some b)).states (Fin.last n))) := by
  refine ⟨⟨?_, ?_, ?_⟩, fun i hi => ⟨?_, ?_, ?_⟩, fun i => ⟨rfl, rfl⟩, fun hash hh => ?_⟩ <;>
    simp [fixBest, Function.update_apply, *]
  intro he
  exact hh (by rw [he])

/-- C9 witness: two walkers, a best record whose hash differs from the
stored id of the last walker. -/
theorem fix_best_frame_witness :
    ((0 : Fin 2) ≠ Fin.last 1) ∧
    (fixBest
        ({ states := ![11, 12], observs := ![(1 : ℚ), 2],
           cum_rewards := ![(3 : ℚ), 4], id_walkers := ![4, 4],
           actions := ![0, 1] } : TableCols 1 ℤ ℚ ℕ)
        (some { best_state := 9, best_obs := 8, best_reward := 7 })).observs 0 = 1 ∧
    ((9 : ℤ) ≠ (4 : ℤ)) ∧
    (fixBest
        ({ states := ![11, 12], observs := ![(1 : ℚ), 2],
           cum_rewards := ![(3 : ℚ), 4], id_walkers := ![4, 4],
           actions := ![0, 1] } : TableCols 1 ℤ ℚ ℕ)
        (some { best_state := 9, best_obs := 8, best_reward := 7 })).id_walkers
        (Fin.last 1) ≠
      (fun s => s)
        ((fixBest
            ({ states := ![11, 12], observs := ![(1 : ℚ), 2],
               cum_rewards := ![(3 : ℚ), 4], id_walkers := ![4, 4],
               actions := ![0, 1] } : TableCols 1 ℤ ℚ ℕ)
            (some { best_state := 9, best_obs := 8, best_reward := 7 })).states
          (Fin.last 1)) := by
  have h := fix_best_frame
    ({ states := ![11, 12], observs := ![(1 : ℚ), 2],
       cum_rewards := ![(3 : ℚ), 4], id_walkers := ![4, 4],
       actions := ![0, 1] } : TableCols 1 ℤ ℚ ℕ)
    { best_state := 9, best_obs := 8, best_reward := 7 }
  refine ⟨by decide, ?_, by decide, ?_⟩
  · rw [(h.2.1 0 (by decide)).1]
    rfl
  · exact h.2.2.2 (fun s => s) (by decide)

theorem flatten_take_chunks {α : Type} (l : List α) (s : ℕ) (m : ℕ) :
    (((List.range m).map (fun i => ((l.drop (i * s)).take s))).flatten)
      = l.take (m * s) := by
  induction m with
  | zero => simp
  | succ m ih =>
    rw [List.range_succ, List.map_append, List.flatten_append, ih]
    simp only [List.map_cons, List.map_nil, List.flatten_cons, List.flatten_nil,
      List.append_nil]
    rw [Nat.succ_mul, List.take_add]

theorem flatten_splitChunks {α : Type} (l : List α) (k : ℕ) :
    (splitChunks l k).flatten = l := by
  unfold splitChunks
  rw [List.flatten_append, flatten_take_chunks]
  simp

/-- C6: splitting the per-walker batch into contiguous chunks, applying the
environment's `make_transitions` to each chunk, and concatenating the
per-chunk outputs in worker order yields, for every output column, exactly
the serial result over the unsplit inputs, provided the environment applies
a deterministic per-walker function; the rejoin depends only on the chunk
list, not on the order worker replies arrive in. -/
theorem batched_transitions_eq_serial {α β : Type} (f : α → β)
    (envTransitions : List α → List β)
    (henv : ∀ chunk, envTransitions chunk = chunk.map f)
    (l : List α) (k : ℕ) :
    mergeColumn ((splitChunks l k).map envTransitions) = envTransitions l := by
  have h1 : (splitChunks l k).map envTransitions
      = (splitChunks l k).map (List.map f) :=
    List.map_congr_left (fun c _ => henv c)
  rw [mergeColumn, h1, ← List.map_flatten, flatten_splitChunks, henv]

/-- C6 witness: five walkers split over two workers, environment adds one to
each state. -/
theorem batched_transitions_eq_serial_witness :
    mergeColumn ((splitChunks [1, 2, 3, 4, 5] 2).map (List.map Nat.succ)) =
      List.map Nat.succ [1, 2, 3, 4, 5] ∧
    mergeColumn ((splitChunks [1, 2, 3, 4, 5] 2).map (List.map Nat.succ)) =
      [2, 3, 4, 5, 6] := by
  have h := batched_transitions_eq_serial Nat.succ (List.map Nat.succ)
    (fun _ => rfl) [1, 2, 3, 4, 5] 2
  exact ⟨h, by rw [h]; rfl⟩

theorem foldl_argmax_spec (v : ℕ → ℕ) :
    ∀ (idxs : List ℕ) (b : ℕ),
      ((idxs.foldl (fun c j => if v j > v c then j else c) b) = b ∨
        (idxs.foldl (fun c j => if v j > v c then j else c) b) ∈ idxs) ∧
      v b ≤ v (idxs.foldl (fun c j => if v j > v c then j else c) b) ∧
      (∀ j ∈ idxs, v j ≤ v (idxs.foldl (fun c j => if v j > v c then j else c) b)) := by
  intro idxs
  induction idxs with
  | nil => intro b; simp
  | cons a t ih =>
    intro b
    rw [List.foldl_cons]
    by_cases h : v a > v b
    · rw [if_pos h]
      obtain ⟨hmem, hle, hall⟩ := ih a
      refine ⟨?_, le_trans (le_of_lt h) hle, ?_⟩
      · rcases hmem with h0 | h0
        · exact Or.inr (by rw [h0]; exact List.mem_cons_self a t)
        · exact Or.inr (List.mem_cons_of_mem a h0)
      · intro j hj
        rcases List.mem_cons.mp hj with rfl | hj2
        · exact hle
        · exact hall j hj2
    · rw [if_neg h]
      obtain ⟨hmem, hle, hall⟩ := ih b
      refine ⟨?_, hle, ?_⟩
      · rcases hmem with h0 | h0
        · exact Or.inl h0
        · exact Or.inr (List.mem_cons_of_mem a h0)
      · intro j hj
        rcases List.mem_cons.mp hj with rfl | hj2
        · exact le_trans (not_lt.mp h) hle
        · exact hall j hj2

theorem argmaxCount_spec (l : List ℕ) (hl : l ≠ []) :
    argmaxCount l < l.length ∧
    ∀ j, j < l.length → l.getD j 0 ≤ l.getD (argmaxCount l) 0 := by
  have h := foldl_argmax_spec (fun j => l.getD j 0) (List.range l.length) 0
  constructor
  · rcases h.1 with h0 | hmem
    · rw [argmaxCount, h0]
      exact List.length_pos.mpr hl
    · rw [argmaxCount]
      exact List.mem_range.mp hmem
  · intro j hj
    exact h.2.2 j (List.mem_range.mpr hj)

theorem foldr_succ_max_le (l : List ℕ) (nA : ℕ) (h : ∀ a ∈ l, a < nA) :
    l.foldr (fun a b => max (a + 1) b) 0 ≤ nA := by
  induction l with
  | nil => simp
  | cons a t ih =>
    simp only [List.foldr_cons]
    exact max_le (h a (List.mem_cons_self a t))
      (ih (fun x hx => h x (List.mem_cons_of_mem a hx)))

theorem bincount_length_of_lt (l : List ℕ) (nA : ℕ) (h : ∀ a ∈ l, a < nA) :
    (bincount l nA).length = nA := by
  unfold bincount
  rw [List.length_map, List.length_range]
  exact max_eq_left (foldr_succ_max_le l nA h)

theorem bincount_getD (l : List ℕ) (nA j : ℕ) (hj : j < (bincount l nA).length) :
    (bincount l nA).getD j 0 = l.count j := by
  unfold bincount at hj ⊢
  rw [List.getD_eq_getElem _ _ hj]
  simp

theorem chooseMajority_is_mode (initActions : List ℕ) (nA : ℕ)
    (hn : 0 < nA) (hmem : ∀ a ∈ initActions, a < nA) :
    chooseMajority initActions nA < nA ∧
    ∀ a, a < nA →
      initActions.count a ≤ initActions.count (chooseMajority initActions nA) := by
  have hlen : (bincount initActions nA).length = nA := bincount_length_of_lt _ _ hmem
  have hne : bincount initActions nA ≠ [] := by
    intro h0
    rw [h0] at hlen
    simp at hlen
    omega
  have hspec := argmaxCount_spec (bincount initActions nA) hne
  have hres : chooseMajority initActions nA < nA := by
    show argmaxCount (bincount initActions nA) < nA
    exact lt_of_lt_of_eq hspec.1 hlen
  refine ⟨hres, fun a ha => ?_⟩
  have h1 := hspec.2 a (by rw [hlen]; exact ha)
  rw [bincount_getD _ _ _ (by rw [hlen]; exact ha)] at h1
  rw [bincount_getD _ _ _ hspec.1] at h1
  exact h1

/-- C7: with a discrete action space the FMC outer policy returns
`argmax(bincount(init_actions, minlength=n_actions))` — a majority vote: an
action below `n_actions` whose occurrence count among the recorded first
actions is maximal — and with a continuous action space it returns the
per-dimension mean of the inner walkers' first actions. -/
theorem fmc_select_actions_aggregation :
    (∀ (initActions : List ℕ) (nA : ℕ), 0 < nA → (∀ a ∈ initActions, a < nA) →
      chooseMajority initActions nA < nA ∧
      ∀ a, a < nA →
        initActions.count a ≤ initActions.count (chooseMajority initActions nA)) ∧
    (∀ (initActions : List (List ℚ)) (dims j : ℕ), initActions ≠ [] → j < dims →
      (meanActions initActions dims).getD j 0 =
        (initActions.map (fun row => row.getD j 0)).sum / initActions.length ∧
      (meanActions initActions dims).getD j 0 * initActions.length =
        (initActions.map (fun row => row.getD j 0)).sum) := by
  refine ⟨fun ia nA hn hmem => chooseMajority_is_mode ia nA hn hmem,
    fun ia dims j hne hj => ?_⟩
  have hjlen : j < (meanActions ia dims).length := by
    rw [meanActions, List.length_map, List.length_range]
    exact hj
  have hval : (meanActions ia dims).getD j 0 =
      (ia.map (fun row => row.getD j 0)).sum / ia.length := by
    rw [List.getD_eq_getElem _ _ hjlen]
    simp [meanActions]
  refine ⟨hval, ?_⟩
  rw [hval]
  have hlen : (ia.length : ℚ) ≠ 0 := by
    exact_mod_cast Nat.pos_iff_ne_zero.mp (List.length_pos.mpr hne)
  field_simp

/-- C7 witness: three inner walkers voting over two discrete actions, and a
two-walker continuous mean in one dimension. -/
theorem fmc_select_actions_aggregation_witness :
    (0 : ℕ) < 2 ∧
    chooseMajority [1, 0, 1] 2 < 2 ∧
    List.count 0 [1, 0, 1] ≤ List.count (chooseMajority [1, 0, 1] 2) [1, 0, 1] ∧
    (meanActions [[1], [3]] 1).getD 0 0 =
      (([[1], [3]] : List (List ℚ)).map (fun row => row.getD 0 0)).sum /
        ([[1], [3]] : List (List ℚ)).length := by
  have h1 := fmc_select_actions_aggregation.1 [1, 0, 1] 2 (by decide) (by decide)
  have h2 := fmc_select_actions_aggregation.2 [[1], [3]] 1 0 (by decide) (by decide)
  exact ⟨by decide, h1.1, h1.2 0 (by decide), h2.1⟩

end Fragile
